import Mathlib

/-!
Shallow embedding of the helix undo-history persistence subsystem
(`helix-core/src/history/format.rs`, `helix-core/src/undofile.rs`,
`helix-core/src/history/error.rs`).

Bytes are modelled as `Nat`, byte streams as `List Nat` consumed from the
front.  Readers are plain functions `List Nat → Except StateError (α × List Nat)`
returning the parsed value and the unread remainder.  Writers produce the
byte list that the Rust code writes into the stream.  The content hasher
(`tenthash`, an external crate) is modelled as an explicit function
parameter `hashFn : List Nat → List Nat` applied to the live file's bytes.
-/

namespace Helix

/-- `StateError` from `history/error.rs`.  `IoError` stands for `Io(std::io::Error)`
(the payload carries no information the embedding needs); short reads and the
"invalid variant" operation-tag error both surface as `IoError`, exactly as the
Rust code turns both into `StateError::Io`. -/
inductive StateError where
  | Outdated
  | InvalidHeader
  | InvalidOffset
  | InvalidData (msg : String)
  | InvalidHash
  | IoError
  deriving DecidableEq, Repr

/-- Fuel-indexed little-endian base-256 digit expansion; structurally
recursive so that concrete instances evaluate. -/
def natLEAux : Nat → Nat → List Nat
  | _, 0 => []
  | 0, _ + 1 => []
  | fuel + 1, n + 1 => ((n + 1) % 256) :: natLEAux fuel ((n + 1) / 256)

/-- Little-endian base-256 digits of a natural number; empty for 0 (the
number itself is always enough fuel). -/
def natLE (n : Nat) : List Nat := natLEAux n n

/-- Recompose a number from little-endian base-256 digits. -/
def fromLE : List Nat → Nat
  | [] => 0
  | b :: bs => b + 256 * fromLE bs

/-- Modelled from the spec: `crate::combinators` is not part of the given
sources.  Per the spec, integers use a length-prefixed encoding consistent
across the whole format: a length byte followed by that many little-endian
base-256 digit bytes. -/
def write_usize (n : Nat) : List Nat :=
  (natLE n).length :: natLE n

/-- Modelled from the spec: reader for the length-prefixed integer encoding.
A short read is an I/O error, as in the Rust combinators. -/
def read_usize (l : List Nat) : Except StateError (Nat × List Nat) :=
  match l with
  | [] => .error .IoError
  | len :: rest =>
    if len ≤ rest.length then .ok (fromLE (rest.take len), rest.drop len)
    else .error .IoError

/-- Modelled from the spec: single-byte writer. -/
def write_byte (b : Nat) : List Nat := [b]

/-- Modelled from the spec: single-byte reader. -/
def read_byte (l : List Nat) : Except StateError (Nat × List Nat) :=
  match l with
  | [] => .error .IoError
  | b :: rest => .ok (b, rest)

/-- Modelled from the spec: fixed-width read (`read_many_bytes` /
`read_exact` in the Rust code), failing on a short stream. -/
def read_many_bytes (k : Nat) (l : List Nat) : Except StateError (List Nat × List Nat) :=
  if k ≤ l.length then .ok (l.take k, l.drop k) else .error .IoError

/-- Modelled from the spec: presence flag (one byte, 0 or 1) followed by the
value when present. -/
def write_option {α : Type} (o : Option α) (f : α → List Nat) : List Nat :=
  match o with
  | none => write_byte 0
  | some a => write_byte 1 ++ f a

/-- Modelled from the spec: reader matching `write_option`. -/
def read_option {α : Type} (f : List Nat → Except StateError (α × List Nat))
    (l : List Nat) : Except StateError (Option α × List Nat) :=
  match read_byte l with
  | .error e => .error e
  | .ok (b, rest) =>
    match b with
    | 0 => .ok (none, rest)
    | 1 =>
      match f rest with
      | .error e => .error e
      | .ok (a, rest') => .ok (some a, rest')
    | _ => .error .IoError

/-- Modelled from the spec: element-count prefix followed by the elements
(`write_vec`). -/
def write_vec {α : Type} (xs : List α) (f : α → List Nat) : List Nat :=
  write_usize xs.length ++ xs.flatMap f

/-- Reader for `k` consecutive elements. -/
def read_list {α : Type} (f : List Nat → Except StateError (α × List Nat)) :
    Nat → List Nat → Except StateError (List α × List Nat)
  | 0, l => .ok ([], l)
  | k + 1, l =>
    match f l with
    | .error e => .error e
    | .ok (a, rest) =>
      match read_list f k rest with
      | .error e => .error e
      | .ok (as, rest') => .ok (a :: as, rest')

/-- Modelled from the spec: reader matching `write_vec`. -/
def read_vec {α : Type} (f : List Nat → Except StateError (α × List Nat))
    (l : List Nat) : Except StateError (List α × List Nat) :=
  match read_usize l with
  | .error e => .error e
  | .ok (k, rest) => read_list f k rest

/-- Modelled from the spec: strings are length-prefixed byte sequences; text
is modelled as its byte list. -/
def write_string (s : List Nat) : List Nat :=
  write_usize s.length ++ s

/-- Modelled from the spec: reader matching `write_string`. -/
def read_string (l : List Nat) : Except StateError (List Nat × List Nat) :=
  match read_usize l with
  | .error e => .error e
  | .ok (k, rest) => read_many_bytes k rest

/-- Modelled from the spec: 32-bit coordinates use the same integer encoding
as every other integer of the format (the concrete Rust values are `u32`, so
the width never overflows in the source). -/
def write_u32 (n : Nat) : List Nat := write_usize n

/-- Modelled from the spec: reader matching `write_u32`. -/
def read_u32 (l : List Nat) : Except StateError (Nat × List Nat) := read_usize l

/-- Modelled from the spec: timestamps are modelled as a single natural
number written with the common integer encoding. -/
def write_time (t : Nat) : List Nat := write_usize t

/-- Modelled from the spec: reader matching `write_time`. -/
def read_time (l : List Nat) : Except StateError (Nat × List Nat) := read_usize l

/-- `Range` from the selection model (consumed opaquely by the codec): anchor,
head, optional cached visual position (a pair of 32-bit coordinates). -/
structure Range where
  anchor : Nat
  head : Nat
  old_visual_position : Option (Nat × Nat)
  deriving DecidableEq, Repr

/-- `Selection`: ordered ranges plus the primary range index. -/
structure Selection where
  ranges : List Range
  primary_index : Nat
  deriving DecidableEq, Repr

/-- `Operation` over a text buffer; `Insert` carries its text as a byte list. -/
inductive Operation where
  | Retain (n : Nat)
  | Delete (n : Nat)
  | Insert (s : List Nat)
  deriving DecidableEq, Repr

/-- `ChangeSet`: the operation list with length-before/length-after counters. -/
structure ChangeSet where
  changes : List Operation
  len : Nat
  len_after : Nat
  deriving DecidableEq, Repr

/-- `Transaction`: a change set plus an optional resulting selection. -/
structure Transaction where
  changes : ChangeSet
  selection : Option Selection
  deriving DecidableEq, Repr

/-- `Revision` from `history.rs` (struct declared outside the given sources;
fields are exactly the ones the codec in `format.rs` reads and writes).
`last_child` models `Option<NonZeroUsize>`. -/
@[ext]
structure Revision where
  parent : Nat
  last_child : Option Nat
  transaction : Transaction
  inversion : Transaction
  timestamp : Nat
  deriving DecidableEq, Repr

/-- `History` from `history.rs`: the revision list, the current index, and
the recorded undofile parent checkpoint used by `undofile.rs`. -/
structure History where
  revisions : List Revision
  current : Nat
  undofile_parent : Option (Nat × List Nat)
  deriving DecidableEq, Repr

/-- `NonZeroUsize::new`: `none` exactly on zero. -/
def nonZeroNew (n : Nat) : Option Nat :=
  if n = 0 then none else some n

/-- `Selection::serialize` (format.rs): primary index, then the range list. -/
def Selection.serialize (s : Selection) : List Nat :=
  write_usize s.primary_index ++
    write_vec s.ranges (fun r =>
      write_usize r.anchor ++ write_usize r.head ++
        write_option r.old_visual_position (fun p => write_u32 p.1 ++ write_u32 p.2))

/-- Reader for one serialized `Range` (the closure inside
`Selection::deserialize`). -/
def readRange (l : List Nat) : Except StateError (Range × List Nat) :=
  match read_usize l with
  | .error e => .error e
  | .ok (anchor, l) =>
    match read_usize l with
    | .error e => .error e
    | .ok (head, l) =>
      match read_option (fun l =>
          match read_u32 l with
          | .error e => .error e
          | .ok (a, l) =>
            match read_u32 l with
            | .error e => .error e
            | .ok (b, l) => .ok ((a, b), l)) l with
      | .error e => .error e
      | .ok (pos, l) => .ok (⟨anchor, head, pos⟩, l)

/-- `Selection::deserialize` (format.rs). -/
def Selection.deserialize (l : List Nat) : Except StateError (Selection × List Nat) :=
  match read_usize l with
  | .error e => .error e
  | .ok (primary_index, l) =>
    match read_vec readRange l with
    | .error e => .error e
    | .ok (ranges, l) => .ok (⟨ranges, primary_index⟩, l)

/-- Serialization of one `Operation` (the closure inside
`Transaction::serialize`): a variant tag byte, then the count or the text. -/
def writeOperation (op : Operation) : List Nat :=
  match op with
  | .Retain n => write_byte 0 ++ write_usize n
  | .Delete n => write_byte 1 ++ write_usize n
  | .Insert s => write_byte 2 ++ write_string s

/-- Reader for one serialized `Operation` (the closure inside
`Transaction::deserialize`); any tag byte other than 0, 1, 2 is the
"invalid variant" I/O error. -/
def readOperation (l : List Nat) : Except StateError (Operation × List Nat) :=
  match read_byte l with
  | .error e => .error e
  | .ok (b, l) =>
    match b with
    | 0 =>
      match read_usize l with
      | .error e => .error e
      | .ok (n, l) => .ok (.Retain n, l)
    | 1 =>
      match read_usize l with
      | .error e => .error e
      | .ok (n, l) => .ok (.Delete n, l)
    | 2 =>
      match read_string l with
      | .error e => .error e
      | .ok (s, l) => .ok (.Insert s, l)
    | _ => .error .IoError

/-- `Transaction::serialize` (format.rs): optional selection, `len`,
`len_after`, then the operation list. -/
def Transaction.serialize (t : Transaction) : List Nat :=
  write_option t.selection Selection.serialize ++
    write_usize t.changes.len ++ write_usize t.changes.len_after ++
    write_vec t.changes.changes writeOperation

/-- `Transaction::deserialize` (format.rs). -/
def Transaction.deserialize (l : List Nat) : Except StateError (Transaction × List Nat) :=
  match read_option Selection.deserialize l with
  | .error e => .error e
  | .ok (selection, l) =>
    match read_usize l with
    | .error e => .error e
    | .ok (len, l) =>
      match read_usize l with
      | .error e => .error e
      | .ok (len_after, l) =>
        match read_vec readOperation l with
        | .error e => .error e
        | .ok (changes, l) => .ok (⟨⟨changes, len, len_after⟩, selection⟩, l)

/-- `Revision::serialize` (format.rs): parent, forward transaction,
inversion, timestamp.  `last_child` is not written. -/
def Revision.serialize (r : Revision) : List Nat :=
  write_usize r.parent ++ r.transaction.serialize ++ r.inversion.serialize ++
    write_time r.timestamp

/-- `Revision::deserialize` (format.rs); the fresh revision always carries
`last_child = none`. -/
def Revision.deserialize (l : List Nat) : Except StateError (Revision × List Nat) :=
  match read_usize l with
  | .error e => .error e
  | .ok (parent, l) =>
    match Transaction.deserialize l with
    | .error e => .error e
    | .ok (transaction, l) =>
      match Transaction.deserialize l with
      | .error e => .error e
      | .ok (inversion, l) =>
        match read_time l with
        | .error e => .error e
        | .ok (timestamp, l) =>
          .ok (⟨parent, none, transaction, inversion, timestamp⟩, l)

/-- The canonical empty transaction of a fresh `History`'s root revision. -/
def emptyTransaction : Transaction :=
  ⟨⟨[], 0, 0⟩, none⟩

/-- Modelled from the spec: the canonical empty root revision of a fresh
`History` (`History::default().revisions.pop()` in format.rs; `history.rs`
itself is outside the given sources).  Per the spec a fresh History holds
exactly one root revision whose parent is itself (index 0), with no child,
empty transactions and a fixed timestamp. -/
def defaultRev : Revision :=
  ⟨0, none, emptyTransaction, emptyTransaction, 0⟩

/-- `UNDO_FILE_HEADER_TAG = b"Helix"` as bytes. -/
def UNDO_FILE_HEADER_TAG : List Nat := [72, 101, 108, 105, 120]

/-- `UNDO_FILE_VERSION = 1`. -/
def UNDO_FILE_VERSION : Nat := 1

/-- `History::serialize` (format.rs): header tag, version byte, `current`,
the fresh digest of the live file, then the revision count and the
serialized revisions from `offset` onward.  The writer is modelled as a
fresh in-memory buffer written from the start, where the seek to
end-of-file before the revision records is a no-op. -/
def History.serialize (hashFn : List Nat → List Nat) (file : List Nat)
    (h : History) (offset : Nat) : List Nat :=
  UNDO_FILE_HEADER_TAG ++ [UNDO_FILE_VERSION] ++ write_usize h.current ++
    hashFn file ++ write_usize h.revisions.length ++
    (h.revisions.drop offset).flatMap Revision.serialize

/-- `HASH_DIGEST_LENGTH = 20`. -/
def HASH_DIGEST_LENGTH : Nat := 20

/-- `History::read_header` (format.rs): reads the 5-byte tag and the version
byte, fails with `InvalidHeader` if either mismatches; otherwise reads
`current` and the stored 20-byte digest and fails with `Outdated` when the
stored digest differs from the fresh digest of the live file, else returns
`current`. -/
def History.read_header (hashFn : List Nat → List Nat) (file : List Nat)
    (l : List Nat) : Except StateError (Nat × List Nat) :=
  match read_many_bytes 5 l with
  | .error e => .error e
  | .ok (header, l) =>
    match read_byte l with
    | .error e => .error e
    | .ok (version, l) =>
      if header ≠ UNDO_FILE_HEADER_TAG ∨ version ≠ UNDO_FILE_VERSION then
        .error .InvalidHeader
      else
        match read_usize l with
        | .error e => .error e
        | .ok (current, l) =>
          match read_many_bytes HASH_DIGEST_LENGTH l with
          | .error e => .error e
          | .ok (hash, l) =>
            if hash ≠ hashFn file then .error .Outdated
            else .ok (current, l)

/-- The revision-reading loop of `History::deserialize` (format.rs,
lines 200-226): reads `k` revisions, checking contiguity and reconstructing
`last_child` back-pointers incrementally. -/
def readRevisions : Nat → List Revision → List Nat →
    Except StateError (List Revision × List Nat)
  | 0, acc, l => .ok (acc, l)
  | k + 1, acc, l =>
    match Revision.deserialize l with
    | .error e => .error e
    | .ok (rev, l') =>
      match acc.get? rev.parent with
      | some r =>
        readRevisions k
          (acc.set rev.parent { r with last_child := nonZeroNew acc.length } ++ [rev]) l'
      | none =>
        if acc.length ≠ 0 then
          .error (.InvalidData ("non-contiguous history: " ++ toString rev.parent ++
            " >= " ++ toString acc.length))
        else if rev ≠ defaultRev then
          .error (.InvalidData "Missing 0th revision")
        else
          readRevisions k (acc ++ [rev]) l'

/-- `History::deserialize` (format.rs): header, revision count, revisions;
returns `(current, history)` and the unread remainder. -/
def History.deserialize (hashFn : List Nat → List Nat) (file : List Nat)
    (l : List Nat) : Except StateError ((Nat × History) × List Nat) :=
  match History.read_header hashFn file l with
  | .error e => .error e
  | .ok (current, l) =>
    match read_usize l with
    | .error e => .error e
    | .ok (len, l) =>
      match readRevisions len [] l with
      | .error e => .error e
      | .ok (revisions, l) => .ok ((current, ⟨revisions, current, none⟩), l)

/-- The common-prefix length computed at the start of `History::merge`:
count of leading positions where parent, transaction and inversion agree
pairwise. -/
def commonN (a b : List Revision) : Nat :=
  ((a.zip b).takeWhile (fun p =>
    decide (p.1.parent = p.2.parent ∧ p.1.transaction = p.2.transaction ∧
      p.1.inversion = p.2.inversion))).length

/-- The grafting loop of `History::merge`: for each divergent revision in
order, shift its parent by `offset` when it pointed into the divergent
region (`parent ≥ n`), update the new parent's `last_child` to the appended
index, and push.  The `unwrap` on an out-of-range parent is modelled as
`none` (a panic in the Rust code). -/
def mergeGraft (n offset : Nat) : List Revision → List Revision → Option (List Revision)
  | acc, [] => some acc
  | acc, r :: rs =>
    let r' := if n ≤ r.parent then { r with parent := r.parent + offset } else r
    match acc.get? r'.parent with
    | none => none
    | some p =>
      mergeGraft n offset
        (acc.set r'.parent { p with last_child := nonZeroNew acc.length } ++ [r']) rs

/-- `History::merge` (format.rs): splits off `self`'s divergent suffix after
the common prefix of length `n`, and when non-empty grafts it onto `other`'s
revisions with parent offset `(other.len - n).saturating_sub(1)` (saturation
is implicit in `Nat` subtraction), adjusting `current` by the same offset
when it pointed into the divergent region.  The Rust function's only
non-`Ok` outcome is the modelled `unwrap` panic (`none`). -/
def History.merge (self other : History) : Option History :=
  let n := commonN self.revisions other.revisions
  let new_revs := self.revisions.drop n
  if new_revs.isEmpty then
    some { self with revisions := self.revisions.take n }
  else
    let offset := other.revisions.length - n - 1
    match mergeGraft n offset other.revisions new_revs with
    | none => none
    | some merged =>
      some ⟨merged,
        if n ≤ self.current then self.current + offset else self.current,
        self.undofile_parent⟩

/-- `UndoStateDiff` (undofile.rs): the revision slice new since the parent
checkpoint plus the History's `current` at commit time. -/
structure UndoStateDiff where
  revisions : List Revision
  current : Nat
  deriving DecidableEq, Repr

/-- `UndoStorageNode` (undofile.rs): file digest, optional parent node
index, and the diff. -/
structure UndoStorageNode where
  hash : List Nat
  parent : Option Nat
  diff : UndoStateDiff
  deriving DecidableEq, Repr

/-- The chain `UndoMap::commit` operates on (undofile.rs): a timestamp and
the node list (the Rust source indexes and pushes nodes carrying diffs). -/
structure UndoMap where
  timestamp : Nat
  nodes : List UndoStorageNode
  deriving DecidableEq, Repr

/-- The parent-walking loop inside `UndoMap::commit`: starting from
`parent_idx`, sum each visited node's diff length and follow `parent` links
until a parentless node.  Out-of-range indices (a panic in Rust) and
exhausted fuel (a cycle, on which the Rust loop never terminates) give
`none`; fuel `nodes.length` suffices for every terminating walk. -/
def walkOffset (nodes : List UndoStorageNode) : Nat → Nat → Nat → Option Nat
  | 0, _, _ => none
  | fuel + 1, idx, acc =>
    match nodes.get? idx with
    | none => none
    | some node =>
      match node.parent with
      | some p => walkOffset nodes fuel p (acc + node.diff.revisions.length)
      | none => some (acc + node.diff.revisions.length)

/-- `UndoMap::commit` (undofile.rs): with a recorded parent checkpoint,
check the chain node at that index still has the matching digest (the
`todo!()` on mismatch and the panics are modelled as `none`), walk parent
links summing diff lengths to get `offset`, take `revisions[offset..]` as
the new diff and append a node whose parent is the previous last node;
without a checkpoint, append a parentless node holding every revision. -/
def UndoMap.commit (m : UndoMap) (history : History) (file_hash : List Nat) :
    Option UndoMap :=
  match history.undofile_parent with
  | some (parent_idx, parent_hash) =>
    match m.nodes.get? parent_idx with
    | none => none
    | some node =>
      if node.hash ≠ parent_hash then none
      else
        match walkOffset m.nodes m.nodes.length parent_idx 0 with
        | none => none
        | some offset =>
          some { m with nodes := m.nodes ++
            [⟨file_hash, some (m.nodes.length - 1),
              ⟨history.revisions.drop offset, history.current⟩⟩] }
  | none =>
    some { m with nodes := m.nodes ++
      [⟨file_hash, none, ⟨history.revisions, history.current⟩⟩] }

/-- Modelled from the spec: the header layout the spec claims for
`History::serialize` — magic tag, version byte, current index, last-saved
revision index, save timestamp, digest — written down for comparison with
the layout the source actually writes (the source's `serialize` takes no
last-saved index and writes no timestamp). -/
def serializeSpecClaimed (hashFn : List Nat → List Nat) (file : List Nat)
    (h : History) (lastSaved ts offset : Nat) : List Nat :=
  UNDO_FILE_HEADER_TAG ++ [UNDO_FILE_VERSION] ++ write_usize h.current ++
    write_usize lastSaved ++ write_time ts ++ hashFn file ++
    write_usize h.revisions.length ++
    (h.revisions.drop offset).flatMap Revision.serialize

/-- The tree back-reference invariant: every revision at index `i > 0` has
`parent < i`.  Stated as a boolean scan so concrete instances evaluate. -/
def parentIndexInv (revs : List Revision) : Bool :=
  (List.range revs.length).all (fun i =>
    i == 0 ||
      match revs.get? i with
      | some r => decide (r.parent < i)
      | none => true)

/-- The index of the most recently appended child of revision `p` among
indices `1, ..., m - 1`: the greatest such index whose parent is `p`, if
any. -/
def lastChildAux (revs : List Revision) : Nat → Nat → Option Nat
  | 0, _ => none
  | m + 1, p =>
    if m ≠ 0 ∧ (revs.get? m).map Revision.parent = some p then some m
    else lastChildAux revs m p

/-- Equality of the serialized revision fields (parent, transaction,
inversion, timestamp) — everything except the reconstructed `last_child`. -/
def coreEq (a b : Revision) : Prop :=
  a.parent = b.parent ∧ a.transaction = b.transaction ∧
    a.inversion = b.inversion ∧ a.timestamp = b.timestamp

instance (a b : Revision) : Decidable (coreEq a b) := by
  unfold coreEq; exact inferInstance

/-- A transaction inserting the single byte `c`; used to build concrete
revision trees that differ pairwise. -/
def mkIns (c : Nat) : Transaction := ⟨⟨[.Insert [c]], 0, 1⟩, none⟩

/-- Concrete root revision (the canonical root, with its `last_child`
pointing at its first child as a live History would have it). -/
def rootRev : Revision := { defaultRev with last_child := some 1 }

/-- Concrete deterministic stand-in for the content hasher: a 20-byte
digest determined by the byte sum. -/
def hf0 : List Nat → List Nat :=
  fun l => List.replicate 20 (l.foldl (· + ·) 0 % 256)

/-- Concrete revision `R1` (child of the root) of the merge scenario. -/
def rev1 : Revision := ⟨0, some 2, mkIns 66, mkIns 66, 1⟩

/-- Concrete revision `R2` (child of `R1`) of the merge scenario. -/
def rev2 : Revision := ⟨1, none, mkIns 67, mkIns 67, 2⟩

/-- Concrete revision `R3` (a different child of `R1`) of the merge
scenario. -/
def rev3 : Revision := ⟨1, none, mkIns 68, mkIns 68, 3⟩

/-- History `A = [root, R1, R2]`, current 2. -/
def histA : History := ⟨[rootRev, rev1, rev2], 2, none⟩

/-- History `B = [root, R1, R3]`, current 2. -/
def histB : History := ⟨[rootRev, rev1, rev3], 2, none⟩

/-- Revision `B` of the documented merge example (child of the root `A`). -/
def revB : Revision := ⟨0, some 2, mkIns 66, mkIns 66, 1⟩

/-- Revision `C` of the documented merge example (child of `B`). -/
def revC : Revision := ⟨1, some 3, mkIns 67, mkIns 67, 2⟩

/-- Revision `D` of the documented merge example (child of `C`). -/
def revD : Revision := ⟨2, none, mkIns 68, mkIns 68, 3⟩

/-- Revision `E` of the documented merge example (child of `B`). -/
def revE : Revision := ⟨1, some 3, mkIns 69, mkIns 69, 4⟩

/-- Revision `F` of the documented merge example (child of `E`). -/
def revF : Revision := ⟨2, none, mkIns 70, mkIns 70, 5⟩

/-- `self = [A, B, C, D]` of the documented merge example. -/
def selfABCD : History := ⟨[rootRev, revB, revC, revD], 3, none⟩

/-- `other = [A, B, E, F]` of the documented merge example. -/
def otherABEF : History := ⟨[rootRev, revB, revE, revF], 3, none⟩

/-- A concrete three-revision history (root, a child, a grandchild) for
round-trip witnesses. -/
def hist3 : History :=
  ⟨[{ defaultRev with last_child := some 1 },
    ⟨0, some 2, mkIns 66, mkIns 66, 7⟩,
    ⟨1, none, mkIns 67, mkIns 67, 9⟩], 2, none⟩

/-- The merged history produced by `histA.merge(histB)`: `R2` grafted onto
`B`'s tree with parent untouched, `R1`'s `last_child` now the graft. -/
def mergedAB : History :=
  ⟨[rootRev, ⟨0, some 3, mkIns 66, mkIns 66, 1⟩, rev3, rev2], 2, none⟩

/-- Concrete chain digest `d0`. -/
def digest0 : List Nat := List.replicate 20 1

/-- Concrete chain digest `d1`. -/
def digest1 : List Nat := List.replicate 20 2

/-- Chain with the single node `node0 = {digest d0, no parent, diff = [root, R1]}`. -/
def chain0 : UndoMap := ⟨0, [⟨digest0, none, ⟨[rootRev, rev1], 1⟩⟩]⟩

/-- History `[root, R1, R2, R3']` whose recorded parent checkpoint is
`node0` of `chain0`. -/
def histCommit : History :=
  ⟨[rootRev, rev1, rev2, ⟨2, none, mkIns 69, mkIns 69, 4⟩], 3, some (0, digest0)⟩

end Helix

namespace Helix

theorem fromLE_natLEAux : ∀ fuel n, n ≤ fuel → fromLE (natLEAux fuel n) = n := by
  intro fuel
  induction fuel with
  | zero =>
    intro n hn
    interval_cases n
    rfl
  | succ fuel ih =>
    intro n hn
    match n with
    | 0 => rfl
    | n + 1 =>
      have hdiv : (n + 1) / 256 ≤ fuel := by
        have h1 : (n + 1) / 256 < n + 1 := Nat.div_lt_self (by omega) (by omega)
        omega
      simp only [natLEAux, fromLE, ih _ hdiv]
      omega

theorem fromLE_natLE (n : Nat) : fromLE (natLE n) = n :=
  fromLE_natLEAux n n (Nat.le_refl n)

theorem read_usize_write (n : Nat) (rest : List Nat) :
    read_usize (write_usize n ++ rest) = .ok (n, rest) := by
  simp only [write_usize, List.cons_append, read_usize]
  rw [if_pos (by simp)]
  rw [List.take_left, List.drop_left, fromLE_natLE]

theorem read_byte_write (b : Nat) (rest : List Nat) :
    read_byte (write_byte b ++ rest) = .ok (b, rest) := rfl

theorem read_many_bytes_exact (pre rest : List Nat) :
    read_many_bytes pre.length (pre ++ rest) = .ok (pre, rest) := by
  simp only [read_many_bytes]
  rw [if_pos (by simp)]
  rw [List.take_left, List.drop_left]

theorem read_option_write {α : Type} (o : Option α) (w : α → List Nat)
    (f : List Nat → Except StateError (α × List Nat))
    (hf : ∀ a rest, f (w a ++ rest) = .ok (a, rest)) (rest : List Nat) :
    read_option f (write_option o w ++ rest) = .ok (o, rest) := by
  cases o with
  | none => rfl
  | some a =>
    simp only [write_option, write_byte, List.cons_append, List.nil_append,
      List.append_assoc, read_option, read_byte, hf]

theorem read_list_write {α : Type} (xs : List α) (w : α → List Nat)
    (f : List Nat → Except StateError (α × List Nat))
    (hf : ∀ a rest, f (w a ++ rest) = .ok (a, rest)) (rest : List Nat) :
    read_list f xs.length (xs.flatMap w ++ rest) = .ok (xs, rest) := by
  induction xs generalizing rest with
  | nil => rfl
  | cons x xs ih =>
    simp only [List.length_cons, List.flatMap_cons, List.append_assoc, read_list,
      hf, ih]

theorem read_vec_write {α : Type} (xs : List α) (w : α → List Nat)
    (f : List Nat → Except StateError (α × List Nat))
    (hf : ∀ a rest, f (w a ++ rest) = .ok (a, rest)) (rest : List Nat) :
    read_vec f (write_vec xs w ++ rest) = .ok (xs, rest) := by
  simp only [write_vec, List.append_assoc, read_vec, read_usize_write,
    read_list_write xs w f hf]

theorem read_string_write (s : List Nat) (rest : List Nat) :
    read_string (write_string s ++ rest) = .ok (s, rest) := by
  simp only [write_string, List.append_assoc, read_string, read_usize_write,
    read_many_bytes_exact]

theorem readRange_write (r : Range) (rest : List Nat) :
    readRange (write_usize r.anchor ++ (write_usize r.head ++
      (write_option r.old_visual_position
        (fun p => write_u32 p.1 ++ write_u32 p.2) ++ rest))) = .ok (r, rest) := by
  simp only [readRange, read_usize_write]
  rw [read_option_write r.old_visual_position _ _
    (fun p rs => by
      simp only [List.append_assoc, read_u32, write_u32, read_usize_write]) rest]

theorem selection_deserialize_serialize (s : Selection) (rest : List Nat) :
    Selection.deserialize (Selection.serialize s ++ rest) = .ok (s, rest) := by
  simp only [Selection.serialize, List.append_assoc, Selection.deserialize,
    read_usize_write]
  rw [read_vec_write s.ranges
    (fun r => write_usize r.anchor ++ (write_usize r.head ++
      write_option r.old_visual_position
        (fun p => write_u32 p.1 ++ write_u32 p.2)))
    readRange
    (fun r rs => by
      simp only [List.append_assoc]
      exact readRange_write r rs) rest]

theorem readOperation_write (op : Operation) (rest : List Nat) :
    readOperation (writeOperation op ++ rest) = .ok (op, rest) := by
  cases op with
  | Retain n =>
    simp only [writeOperation, write_byte, List.cons_append, List.nil_append,
      readOperation, read_byte, read_usize_write]
  | Delete n =>
    simp only [writeOperation, write_byte, List.cons_append, List.nil_append,
      readOperation, read_byte, read_usize_write]
  | Insert s =>
    simp only [writeOperation, write_byte, List.cons_append, List.nil_append,
      readOperation, read_byte, read_string_write]

theorem transaction_deserialize_serialize (t : Transaction) (rest : List Nat) :
    Transaction.deserialize (Transaction.serialize t ++ rest) = .ok (t, rest) := by
  simp only [Transaction.serialize, List.append_assoc, Transaction.deserialize]
  rw [read_option_write t.selection _ _
    (fun s rs => selection_deserialize_serialize s rs)]
  simp only [read_usize_write]
  rw [read_vec_write t.changes.changes _ readOperation
    (fun op rs => readOperation_write op rs) rest]

theorem revision_deserialize_serialize (r : Revision) (rest : List Nat) :
    Revision.deserialize (Revision.serialize r ++ rest) =
      .ok ({ r with last_child := none }, rest) := by
  simp only [Revision.serialize, List.append_assoc, Revision.deserialize,
    read_usize_write, transaction_deserialize_serialize, read_time, write_time]

theorem read_many_bytes_tag (x : List Nat) :
    read_many_bytes 5 (UNDO_FILE_HEADER_TAG ++ x) = .ok (UNDO_FILE_HEADER_TAG, x) := by
  have h := read_many_bytes_exact UNDO_FILE_HEADER_TAG x
  simpa [UNDO_FILE_HEADER_TAG] using h

theorem read_header_reduce (hashFn : List Nat → List Nat) (file : List Nat)
    (current : Nat) (hash rest : List Nat) (hlen : hash.length = 20) :
    History.read_header hashFn file (UNDO_FILE_HEADER_TAG ++ [UNDO_FILE_VERSION] ++
      write_usize current ++ hash ++ rest) =
      if hash = hashFn file then .ok (current, rest) else .error .Outdated := by
  have hdig : read_many_bytes HASH_DIGEST_LENGTH (hash ++ rest) = .ok (hash, rest) := by
    have h := read_many_bytes_exact hash rest
    rw [hlen] at h
    simpa [HASH_DIGEST_LENGTH] using h
  simp only [History.read_header, List.append_assoc, read_many_bytes_tag,
    List.cons_append, List.nil_append, read_byte]
  rw [if_neg (by simp)]
  simp only [read_usize_write, hdig]
  by_cases h : hash = hashFn file <;> simp [h]

/-- Claim C5: `read_header` fails with `InvalidHeader` on every input whose
first five bytes differ from the magic tag or whose sixth (version) byte is
not the supported version, regardless of the remaining bytes — it neither
returns `Outdated` nor a current index there. -/
theorem read_header_invalid_header (hashFn : List Nat → List Nat) (file input : List Nat)
    (h6 : 6 ≤ input.length)
    (hbad : input.take 5 ≠ UNDO_FILE_HEADER_TAG ∨ input.get? 5 ≠ some UNDO_FILE_VERSION) :
    History.read_header hashFn file input = .error .InvalidHeader := by
  obtain ⟨b, rest, hbr⟩ : ∃ b rest, input.drop 5 = b :: rest := by
    have hlen : 0 < (input.drop 5).length := by
      rw [List.length_drop]; omega
    cases hd : input.drop 5 with
    | nil => rw [hd] at hlen; simp at hlen
    | cons b rest => exact ⟨b, rest, rfl⟩
  have hb5 : input.get? 5 = some b := by
    rw [List.get?_eq_getElem?, ← List.head?_drop, hbr]; rfl
  have hcond : input.take 5 ≠ UNDO_FILE_HEADER_TAG ∨ b ≠ UNDO_FILE_VERSION := by
    rcases hbad with h | h
    · exact Or.inl h
    · right; intro hbv; apply h; rw [hb5, hbv]
  simp only [History.read_header, read_many_bytes]
  rw [if_pos (by omega : 5 ≤ input.length)]
  simp only [hbr, read_byte]
  rw [if_pos hcond]

/-- Witness for C5 at the concrete input `[0,0,0,0,0,0]`. -/
theorem read_header_invalid_header_witness :
    6 ≤ ([0, 0, 0, 0, 0, 0] : List Nat).length ∧
      History.read_header hf0 [] [0, 0, 0, 0, 0, 0] = .error .InvalidHeader :=
  ⟨by decide, read_header_invalid_header hf0 [] [0, 0, 0, 0, 0, 0] (by decide)
    (Or.inl (by decide))⟩

/-- Claim C6: with a valid tag and version and well-formed header fields,
`read_header` returns `Outdated` exactly when the stored 20-byte digest
differs from the freshly computed digest of the live file, and returns the
current index read from the header when they agree. -/
theorem read_header_outdated_iff (hashFn : List Nat → List Nat) (file : List Nat)
    (current : Nat) (hash rest : List Nat) (hlen : hash.length = 20) :
    (History.read_header hashFn file (UNDO_FILE_HEADER_TAG ++ [UNDO_FILE_VERSION] ++
        write_usize current ++ hash ++ rest) = .error .Outdated ↔ hash ≠ hashFn file) ∧
    (hash = hashFn file →
      History.read_header hashFn file (UNDO_FILE_HEADER_TAG ++ [UNDO_FILE_VERSION] ++
        write_usize current ++ hash ++ rest) = .ok (current, rest)) := by
  rw [read_header_reduce hashFn file current hash rest hlen]
  constructor
  · by_cases h : hash = hashFn file <;> simp [h]
  · intro h; simp [h]

/-- Witness for C6: a stored all-zero digest against a live file whose
fresh digest is nonzero is reported `Outdated`. -/
theorem read_header_outdated_iff_witness :
    (List.replicate 20 0 : List Nat).length = 20 ∧
      History.read_header hf0 [1] (UNDO_FILE_HEADER_TAG ++ [UNDO_FILE_VERSION] ++
        write_usize 4 ++ List.replicate 20 0 ++ [42]) = .error .Outdated := by
  refine ⟨by decide, ?_⟩
  rw [((read_header_outdated_iff hf0 [1] 4 (List.replicate 20 0) [42] (by decide)).1).2
    (by decide)]

/-- Claim C7: in the revision-reading loop of `History::deserialize`, a
revision whose parent index refers to no already-read revision fails with
`InvalidData`: the "non-contiguous history" error when at least one
revision was already read, and the "Missing 0th revision" error when none
was and the revision is not the canonical empty root. -/
theorem deserialize_contiguity_errors (k : Nat) (acc : List Revision)
    (l l' : List Nat) (rev : Revision)
    (hdes : Revision.deserialize l = .ok (rev, l'))
    (hnone : acc.get? rev.parent = none) :
    (acc.length ≠ 0 →
      readRevisions (k + 1) acc l = .error (.InvalidData
        ("non-contiguous history: " ++ toString rev.parent ++ " >= " ++
          toString acc.length))) ∧
    (acc.length = 0 → rev ≠ defaultRev →
      readRevisions (k + 1) acc l = .error (.InvalidData "Missing 0th revision")) := by
  constructor
  · intro hlen
    simp only [readRevisions, hdes, hnone]
    rw [if_pos hlen]
  · intro hlen hne
    simp only [readRevisions, hdes, hnone]
    rw [if_neg (by omega), if_pos hne]

/-- Witness for C7: a serialized revision with parent index 5 read into an
empty list (it is not the canonical root), and the same revision read after
the root. -/
theorem deserialize_contiguity_errors_witness :
    Revision.deserialize (Revision.serialize rev2 ++ []) =
        .ok ({ rev2 with last_child := none }, []) ∧
      readRevisions 1 [defaultRev, { defaultRev with timestamp := 5 }]
        (Revision.serialize ⟨7, none, mkIns 67, mkIns 67, 2⟩ ++ []) =
        .error (.InvalidData "non-contiguous history: 7 >= 2") ∧
      readRevisions 1 [] (Revision.serialize rev2 ++ []) =
        .error (.InvalidData "Missing 0th revision") := by
  refine ⟨revision_deserialize_serialize rev2 [], ?_, ?_⟩
  · have h := (deserialize_contiguity_errors 0
      [defaultRev, { defaultRev with timestamp := 5 }]
      (Revision.serialize ⟨7, none, mkIns 67, mkIns 67, 2⟩ ++ []) []
      ({ (⟨7, none, mkIns 67, mkIns 67, 2⟩ : Revision) with last_child := none })
      (revision_deserialize_serialize _ []) (by decide)).1 (by decide)
    simpa using h
  · have h := (deserialize_contiguity_errors 0 [] (Revision.serialize rev2 ++ []) []
      ({ rev2 with last_child := none })
      (revision_deserialize_serialize rev2 []) (by decide)).2 (by decide) (by decide)
    simpa using h

/-- Claim C10: `Transaction::deserialize` returns an error on every stream
whose operation list contains a tag byte other than 0 (Retain), 1 (Delete)
or 2 (Insert); no `Transaction` is produced from such input. -/
theorem transaction_deserialize_invalid_tag (sel : Option Selection)
    (len lenAfter k b : Nat) (rest : List Nat) (hb : 3 ≤ b) :
    Transaction.deserialize (write_option sel Selection.serialize ++
      write_usize len ++ write_usize lenAfter ++ write_usize (k + 1) ++
      b :: rest) = .error .IoError := by
  obtain ⟨c, rfl⟩ : ∃ c, b = c + 3 := ⟨b - 3, by omega⟩
  simp only [Transaction.deserialize, List.append_assoc]
  rw [read_option_write sel _ _ (fun s rs => selection_deserialize_serialize s rs)]
  simp only [read_usize_write, read_vec, read_list, readOperation, read_byte]

/-- Witness for C10 at tag byte 3. -/
theorem transaction_deserialize_invalid_tag_witness :
    3 ≤ 3 ∧
      Transaction.deserialize (write_option none Selection.serialize ++
        write_usize 0 ++ write_usize 0 ++ write_usize 1 ++ [3]) = .error .IoError :=
  ⟨by decide, transaction_deserialize_invalid_tag none 0 0 0 3 [] (by decide)⟩

/-- Claim C9: with a recorded parent checkpoint whose digest matches the
chain node at that index, `commit` computes `offset` as the sum of diff
revision counts along the parent walk from that node to a parentless root,
takes `revisions[offset..]` and the History's current index as the new
diff, and appends exactly one node whose parent is the chain's previous
last node. -/
theorem undomap_commit_checkpoint (m : UndoMap) (history : History)
    (file_hash parent_hash : List Nat) (pidx off : Nat) (node : UndoStorageNode)
    (hp : history.undofile_parent = some (pidx, parent_hash))
    (hnode : m.nodes.get? pidx = some node)
    (hhash : node.hash = parent_hash)
    (hwalk : walkOffset m.nodes m.nodes.length pidx 0 = some off) :
    UndoMap.commit m history file_hash = some { m with nodes := m.nodes ++
      [⟨file_hash, some (m.nodes.length - 1),
        ⟨history.revisions.drop off, history.current⟩⟩] } := by
  simp only [UndoMap.commit, hp, hnode, hhash, hwalk, ne_eq, not_true_eq_false,
    if_false, ite_false]

/-- Witness for C9: the concrete scenario — chain `[node0 {d0, no parent,
diff [root, R1]}]`, History `[root, R1, R2, R3']` with checkpoint `node0`;
commit appends `node1 {d1, parent 0, diff [R2, R3']}`. -/
theorem undomap_commit_checkpoint_witness :
    histCommit.undofile_parent = some (0, digest0) ∧
      UndoMap.commit chain0 histCommit digest1 = some ⟨0,
        [⟨digest0, none, ⟨[rootRev, rev1], 1⟩⟩,
         ⟨digest1, some 0, ⟨[rev2, ⟨2, none, mkIns 69, mkIns 69, 4⟩], 3⟩⟩]⟩ := by
  refine ⟨by decide, ?_⟩
  have h := undomap_commit_checkpoint chain0 histCommit digest1 digest0 0 2
    ⟨digest0, none, ⟨[rootRev, rev1], 1⟩⟩ (by decide) (by decide) (by decide) (by decide)
  simpa [chain0, histCommit] using h

/-- Claim C1 (code bug): at the merge doc comment's own example
`self = [A,B,C,D]`, `other = [A,B,E,F]`, the code computes offset
`(4 - 2).saturating_sub(1) = 1` and rewrites `D`'s parent to `3` — the
merged position of `F` — although `C`, `D`'s documented parent, sits at
merged index `4`; so the merged parents are `[0,0,1,2,1,3]` and not the
documented tree shape `[0,0,1,2,1,4]` (`A→B→C→D` with branch `B→E→F`). -/
theorem merge_doc_example_offset_bug :
    (History.merge selfABCD otherABEF).map (fun m => m.revisions.map Revision.parent) =
        some [0, 0, 1, 2, 1, 3] ∧
      (History.merge selfABCD otherABEF).map (fun m =>
          m.revisions.map Revision.transaction) =
        some [emptyTransaction, mkIns 66, mkIns 69, mkIns 70, mkIns 67, mkIns 68] ∧
      (History.merge selfABCD otherABEF).map (fun m => m.revisions.map Revision.parent) ≠
        some [0, 0, 1, 2, 1, 4] := by
  refine ⟨by decide, by decide, by decide⟩

/-- Counterexample to claim C2 as stated: merging `A = [root,R1,R2]` into
`B = [root,R1,R3]` does not rewrite `R2`'s parent to 2, and `last_child` of
revision 1 does not designate `R3` (index 2). -/
theorem merge_scenario_counterexample :
    ¬ ((History.merge histA histB).map (fun m =>
        ((m.revisions.get? 3).map Revision.parent,
          (m.revisions.get? 1).bind Revision.last_child)) =
      some (some 2, some 2)) := by decide

/-- Claim C2 as amended: `A.merge(B)` yields `[root, R1, R3, R2']` where
`R2'` is `R2` with its parent unchanged at 1 (it lies in the shared prefix,
`parent < n = 2`), and revision 1's `last_child` designates the grafted
`R2'` at index 3 (the graft becomes the most recent branch); `current`
stays 2. -/
theorem merge_scenario_amended :
    (History.merge histA histB).map (fun m =>
        (m.revisions.map Revision.parent, m.revisions.map Revision.transaction,
          (m.revisions.get? 1).bind Revision.last_child, m.current)) =
      some ([0, 0, 1, 1], [emptyTransaction, mkIns 66, mkIns 68, mkIns 67],
        some 3, 2) := by decide

/-- Counterexample to claim C4 as stated: the bytes `serialize` writes are
not the claimed layout (tag, version, current, last-saved index, timestamp,
digest, ...) for any instantiation of the missing fields — concretely, at
the single-root history they differ from the claimed layout even with the
smallest possible last-saved index and timestamp encodings. -/
theorem serialize_header_counterexample :
    History.serialize hf0 [] ⟨[defaultRev], 0, none⟩ 0 ≠
      serializeSpecClaimed hf0 [] ⟨[defaultRev], 0, none⟩ 0 0 0 := by decide

/-- Claim C4 as amended: the header `serialize` writes is exactly the magic
tag, the version byte, the current revision index and the fresh digest of
the live file (no last-saved index and no timestamp), followed by the
revision count and the revision records; correspondingly `read_header`
recovers from it only the current index, which `deserialize` passes to its
caller. -/
theorem serialize_header_amended (hashFn : List Nat → List Nat) (file : List Nat)
    (h : History) (off : Nat) (hlen : (hashFn file).length = 20) :
    History.serialize hashFn file h off = UNDO_FILE_HEADER_TAG ++ [UNDO_FILE_VERSION] ++
        write_usize h.current ++ hashFn file ++ write_usize h.revisions.length ++
        (h.revisions.drop off).flatMap Revision.serialize ∧
      History.read_header hashFn file (History.serialize hashFn file h off) =
        .ok (h.current, write_usize h.revisions.length ++
          (h.revisions.drop off).flatMap Revision.serialize) := by
  refine ⟨rfl, ?_⟩
  have hr := read_header_reduce hashFn file h.current (hashFn file)
    (write_usize h.revisions.length ++ (h.revisions.drop off).flatMap Revision.serialize)
    hlen
  rw [if_pos rfl] at hr
  calc History.read_header hashFn file (History.serialize hashFn file h off)
      = History.read_header hashFn file (UNDO_FILE_HEADER_TAG ++ [UNDO_FILE_VERSION] ++
          write_usize h.current ++ hashFn file ++
          (write_usize h.revisions.length ++
            (h.revisions.drop off).flatMap Revision.serialize)) := by
        simp [History.serialize, List.append_assoc]
    _ = .ok (h.current, write_usize h.revisions.length ++
          (h.revisions.drop off).flatMap Revision.serialize) := hr

theorem parentIndexInv_iff (revs : List Revision) :
    parentIndexInv revs = true ↔
      ∀ i r, revs.get? i = some r → i ≠ 0 → r.parent < i := by
  unfold parentIndexInv
  rw [List.all_eq_true]
  constructor
  · intro h i r hget hi
    have hlt : i < revs.length := (List.get?_eq_some.mp hget).1
    have hh := h i (List.mem_range.mpr hlt)
    have hb : (i == 0) = false := by simp [hi]
    rw [hb, Bool.false_or, hget] at hh
    exact of_decide_eq_true hh
  · intro h i hmem
    by_cases hi : i = 0
    · simp [hi]
    · have hb : (i == 0) = false := by simp [hi]
      rw [hb, Bool.false_or]
      cases hget : revs.get? i with
      | none => rfl
      | some r => exact decide_eq_true (h i r hget hi)

theorem parentInv_step (acc : List Revision) (newr p : Revision) (lc : Option Nat)
    (hget : acc.get? newr.parent = some p)
    (hinv : ∀ i r, acc.get? i = some r → i ≠ 0 → r.parent < i) :
    ∀ i r, (acc.set newr.parent { p with last_child := lc } ++ [newr]).get? i = some r →
      i ≠ 0 → r.parent < i := by
  intro i r hi hne
  have hplen : newr.parent < acc.length := (List.get?_eq_some.mp hget).1
  have hilen : i < acc.length + 1 := by
    have h1 := (List.get?_eq_some.mp hi).1
    simpa using h1
  by_cases hcase : i < acc.length
  · rw [List.get?_append (by simpa using hcase)] at hi
    by_cases hip : i = newr.parent
    · subst hip
      rw [List.get?_set_eq_of_lt _ hplen] at hi
      have hr : r = { p with last_child := lc } := by
        injection hi with h1; exact h1.symm
      subst hr
      simpa using hinv newr.parent p hget hne
    · rw [List.get?_set_ne _ _ (fun hh => hip hh.symm)] at hi
      exact hinv i r hi hne
  · have hieq : i = acc.length := by omega
    subst hieq
    have hlast := List.get?_concat_length
      (acc.set newr.parent { p with last_child := lc }) newr
    rw [List.length_set] at hlast
    rw [hlast] at hi
    have hr : r = newr := by injection hi with h1; exact h1.symm
    subst hr
    exact hplen

theorem mergeGraft_inv (n offset : Nat) :
    ∀ (todo acc out : List Revision),
      (∀ i r, acc.get? i = some r → i ≠ 0 → r.parent < i) →
      mergeGraft n offset acc todo = some out →
      (∀ i r, out.get? i = some r → i ≠ 0 → r.parent < i) := by
  intro todo
  induction todo with
  | nil =>
    intro acc out hinv h
    simp only [mergeGraft, Option.some.injEq] at h
    subst h
    exact hinv
  | cons r rs ih =>
    intro acc out hinv h
    simp only [mergeGraft] at h
    cases hget : acc.get?
        (if n ≤ r.parent then { r with parent := r.parent + offset } else r).parent with
    | none => rw [hget] at h; exact absurd h (by simp)
    | some p =>
      rw [hget] at h
      exact ih _ out (parentInv_step acc _ p _ hget hinv) h

theorem readRevisions_inv :
    ∀ (k : Nat) (acc : List Revision) (l : List Nat) (out : List Revision)
      (rest : List Nat),
      (∀ i r, acc.get? i = some r → i ≠ 0 → r.parent < i) →
      readRevisions k acc l = .ok (out, rest) →
      (∀ i r, out.get? i = some r → i ≠ 0 → r.parent < i) := by
  intro k
  induction k with
  | zero =>
    intro acc l out rest hinv h
    simp only [readRevisions, Except.ok.injEq, Prod.mk.injEq] at h
    obtain ⟨h1, _⟩ := h
    subst h1
    exact hinv
  | succ k ih =>
    intro acc l out rest hinv h
    cases hdes : Revision.deserialize l with
    | error e =>
      simp only [readRevisions, hdes] at h
      exact absurd h (by simp)
    | ok rl =>
      obtain ⟨rev, l'⟩ := rl
      simp only [readRevisions, hdes] at h
      cases hget : acc.get? rev.parent with
      | some p =>
        simp only [hget] at h
        exact ih _ _ out rest (parentInv_step acc rev p _ hget hinv) h
      | none =>
        simp only [hget] at h
        by_cases hlen : acc.length ≠ 0
        · rw [if_pos hlen] at h; exact absurd h (by simp)
        · rw [if_neg hlen] at h
          by_cases hdef : rev ≠ defaultRev
          · rw [if_pos hdef] at h; exact absurd h (by simp)
          · rw [if_neg hdef] at h
            have hacc : acc = [] := List.length_eq_zero.mp (by omega)
            subst hacc
            apply ih _ _ out rest _ h
            intro i r hi hne
            simp only [List.nil_append] at hi
            have h1 := (List.get?_eq_some.mp hi).1
            simp only [List.length_cons, List.length_nil] at h1
            omega

theorem merge_inv (self other m : History)
    (hs : ∀ i r, self.revisions.get? i = some r → i ≠ 0 → r.parent < i)
    (ho : ∀ i r, other.revisions.get? i = some r → i ≠ 0 → r.parent < i)
    (h : History.merge self other = some m) :
    ∀ i r, m.revisions.get? i = some r → i ≠ 0 → r.parent < i := by
  simp only [History.merge] at h
  by_cases hempty : (self.revisions.drop (commonN self.revisions other.revisions)).isEmpty
  · rw [if_pos hempty] at h
    simp only [Option.some.injEq] at h
    subst h
    intro i r hi hne
    have hlt : i < commonN self.revisions other.revisions := by
      have h1 := (List.get?_eq_some.mp hi).1
      rw [List.length_take] at h1
      omega
    rw [List.get?_take hlt] at hi
    exact hs i r hi hne
  · rw [if_neg hempty] at h
    cases hg : mergeGraft (commonN self.revisions other.revisions)
        (other.revisions.length - commonN self.revisions other.revisions - 1)
        other.revisions
        (self.revisions.drop (commonN self.revisions other.revisions)) with
    | none => rw [hg] at h; exact absurd h (by simp)
    | some merged =>
      rw [hg] at h
      simp only [Option.some.injEq] at h
      subst h
      exact mergeGraft_inv _ _ _ _ merged ho hg

theorem deserialize_inv (hashFn : List Nat → List Nat) (file input : List Nat)
    (cur : Nat) (h : History) (rest : List Nat)
    (hde : History.deserialize hashFn file input = .ok ((cur, h), rest)) :
    ∀ i r, h.revisions.get? i = some r → i ≠ 0 → r.parent < i := by
  cases h1 : History.read_header hashFn file input with
  | error e =>
    simp only [History.deserialize, h1] at hde
    exact absurd hde (by simp)
  | ok cl =>
    obtain ⟨c, l1⟩ := cl
    simp only [History.deserialize, h1] at hde
    cases h2 : read_usize l1 with
    | error e =>
      simp only [h2] at hde
      exact absurd hde (by simp)
    | ok kl =>
      obtain ⟨len, l2⟩ := kl
      simp only [h2] at hde
      cases h3 : readRevisions len [] l2 with
      | error e =>
        simp only [h3] at hde
        exact absurd hde (by simp)
      | ok rl =>
        obtain ⟨revs, l3⟩ := rl
        simp only [h3] at hde
        simp only [Except.ok.injEq, Prod.mk.injEq] at hde
        obtain ⟨⟨_, hh⟩, _⟩ := hde
        subst hh
        exact readRevisions_inv len [] l2 revs l3 (by intro i r hi; simp at hi) h3

/-- Claim C8: the tree back-reference invariant (`parent < i` for every
index `i > 0`) holds for every History accepted by `deserialize`, and is
preserved by `merge`: whenever both inputs satisfy it and the merge
produces a History (the Rust code's `unwrap` does not panic), the result
satisfies it. -/
theorem tree_invariant_preserved :
    (∀ (hashFn : List Nat → List Nat) (file input : List Nat) (cur : Nat)
        (h : History) (rest : List Nat),
      History.deserialize hashFn file input = .ok ((cur, h), rest) →
      parentIndexInv h.revisions = true) ∧
    (∀ self other m : History,
      parentIndexInv self.revisions = true → parentIndexInv other.revisions = true →
      History.merge self other = some m → parentIndexInv m.revisions = true) := by
  constructor
  · intro hashFn file input cur h rest hde
    rw [parentIndexInv_iff]
    exact deserialize_inv hashFn file input cur h rest hde
  · intro self other m hs ho hm
    rw [parentIndexInv_iff] at hs ho ⊢
    exact merge_inv self other m hs ho hm

/-- Witness for C8: the invariant holds for the history deserialized from
`hist3`'s serialization and for the result of the concrete merge
`histA.merge(histB)`. -/
theorem tree_invariant_preserved_witness :
    parentIndexInv hist3.revisions = true ∧ parentIndexInv mergedAB.revisions = true :=
  ⟨tree_invariant_preserved.1 hf0 [5, 6] (History.serialize hf0 [5, 6] hist3 0)
      2 hist3 [] (by rfl),
    tree_invariant_preserved.2 histA histB mergedAB (by decide) (by decide) (by rfl)⟩

theorem lastChildAux_eq_none (revs : List Revision) (q : Nat) :
    ∀ k, (∀ j r, j < k → j ≠ 0 → revs.get? j = some r → r.parent ≠ q) →
      lastChildAux revs k q = none := by
  intro k
  induction k with
  | zero => intro _; rfl
  | succ k ih =>
    intro h
    rw [lastChildAux, if_neg ?_]
    · exact ih (fun j r hj => h j r (by omega))
    · rintro ⟨hk0, hmap⟩
      cases hg : revs.get? k with
      | none => rw [hg] at hmap; simp at hmap
      | some r =>
        rw [hg] at hmap
        simp at hmap
        exact h k r (by omega) hk0 hg hmap

theorem lastChildAux_one (revs : List Revision) (p : Nat) :
    lastChildAux revs 1 p = none := by
  show lastChildAux revs (0 + 1) p = none
  rw [lastChildAux, if_neg (by simp)]
  rfl

theorem readRevisions_roundtrip (revs : List Revision)
    (hinv : ∀ i r, revs.get? i = some r → i ≠ 0 → r.parent < i)
    (hroot : ∀ r0, revs.get? 0 = some r0 → coreEq r0 defaultRev) :
    ∀ (todo pre acc : List Revision) (rest : List Nat),
      revs = pre ++ todo →
      acc.length = pre.length →
      (∀ q a b, acc.get? q = some a → revs.get? q = some b → coreEq a b) →
      (∀ q a, acc.get? q = some a → a.last_child = lastChildAux revs pre.length q) →
      ∃ out, readRevisions todo.length acc (todo.flatMap Revision.serialize ++ rest) =
          .ok (out, rest) ∧
        out.length = revs.length ∧
        (∀ q a b, out.get? q = some a → revs.get? q = some b → coreEq a b) ∧
        (∀ q a, out.get? q = some a →
          a.last_child = lastChildAux revs revs.length q) := by
  intro todo
  induction todo with
  | nil =>
    intro pre acc rest hsplit hlen hcore hlast
    have hrp : revs = pre := by simpa using hsplit
    subst hrp
    exact ⟨acc, by simp [readRevisions], hlen, hcore, hlast⟩
  | cons t ts ih =>
    intro pre acc rest hsplit hlen hcore hlast
    have hm : revs.get? pre.length = some t := by
      rw [hsplit, List.get?_append_right (Nat.le_refl pre.length)]
      simp
    simp only [List.length_cons, List.flatMap_cons, List.append_assoc]
    by_cases hm0 : pre.length = 0
    · -- the first revision read must be the canonical root
      have hacc : acc = [] := List.length_eq_zero.mp (by omega)
      subst hacc
      rw [hm0] at hm
      have hdef : ({ t with last_child := none } : Revision) = defaultRev := by
        obtain ⟨hp, htr, hin, hts⟩ := hroot t hm
        apply Revision.ext <;> simp [defaultRev, emptyTransaction] at hp htr hin hts ⊢ <;>
          assumption
      simp only [readRevisions, revision_deserialize_serialize, List.get?_nil,
        List.length_nil, ne_eq, not_true_eq_false, if_false, ite_false, hdef,
        not_false_eq_true, List.nil_append]
      have hsplit' : revs = [t] ++ ts := by
        rw [hsplit, List.length_eq_zero.mp hm0]
        simp
      have hih := ih [t] [defaultRev] rest hsplit' (by simp) ?_ ?_
      · simpa using hih
      · intro q a b hqa hqb
        cases q with
        | zero =>
          simp only [List.get?_cons_zero, Option.some.injEq] at hqa
          rw [hm] at hqb
          obtain ⟨hp, htr, hin, hts⟩ := hroot t hm
          subst hqa
          injection hqb with hqb
          subst hqb
          exact ⟨hp.symm, htr.symm, hin.symm, hts.symm⟩
        | succ q => simp at hqa
      · intro q a hqa
        have hl1 : ([t] : List Revision).length = 1 := rfl
        rw [hl1]
        cases q with
        | zero =>
          simp only [List.get?_cons_zero, Option.some.injEq] at hqa
          subst hqa
          rw [lastChildAux_one]
          rfl
        | succ q => simp at hqa
    · -- a later revision: its parent is already present
      have hpar : t.parent < pre.length := hinv pre.length t hm hm0
      have hparacc : t.parent < acc.length := by omega
      obtain ⟨p, hget⟩ : ∃ p, acc.get? t.parent = some p :=
        ⟨acc.get ⟨t.parent, hparacc⟩, List.get?_eq_some.mpr ⟨hparacc, rfl⟩⟩
      simp only [readRevisions, revision_deserialize_serialize, hget]
      have hacc' : (acc.set t.parent { p with last_child := nonZeroNew acc.length } ++
          [({ t with last_child := none } : Revision)]).length = (pre ++ [t]).length := by
        simp [hlen]
      have hih := ih (pre ++ [t])
        (acc.set t.parent { p with last_child := nonZeroNew acc.length } ++
          [{ t with last_child := none }]) rest ?_ hacc' ?_ ?_
      · simpa using hih
      · rw [hsplit, List.append_assoc]
        simp
      · -- pointwise coreEq for the extended accumulator
        intro q a b hqa hqb
        have hqlen : q < acc.length + 1 := by
          have h1 := (List.get?_eq_some.mp hqa).1
          simpa using h1
        by_cases hq : q < acc.length
        · rw [List.get?_append (by simpa using hq)] at hqa
          by_cases hqp : q = t.parent
          · subst hqp
            rw [List.get?_set_eq_of_lt _ hparacc] at hqa
            have ha : a = { p with last_child := nonZeroNew acc.length } := by
              injection hqa with h1; exact h1.symm
            subst ha
            exact hcore t.parent p b hget hqb
          · rw [List.get?_set_ne _ _ (fun hh => hqp hh.symm)] at hqa
            exact hcore q a b hqa hqb
        · have hqeq : q = acc.length := by omega
          subst hqeq
          have hlast' := List.get?_concat_length
            (acc.set t.parent { p with last_child := nonZeroNew acc.length })
            ({ t with last_child := none })
          rw [List.length_set] at hlast'
          rw [hlast'] at hqa
          have ha : a = { t with last_child := none } := by
            injection hqa with h1; exact h1.symm
          subst ha
          rw [hlen, hm] at hqb
          have hb : b = t := by injection hqb with h1; exact h1.symm
          subst hb
          exact ⟨rfl, rfl, rfl, rfl⟩
      · -- last_child bookkeeping for the extended accumulator
        intro q a hqa
        have hqlen : q < acc.length + 1 := by
          have h1 := (List.get?_eq_some.mp hqa).1
          simpa using h1
        have hlen1 : (pre ++ [t]).length = pre.length + 1 := by simp
        rw [hlen1]
        by_cases hq : q < acc.length
        · rw [List.get?_append (by simpa using hq)] at hqa
          by_cases hqp : q = t.parent
          · subst hqp
            rw [List.get?_set_eq_of_lt _ hparacc] at hqa
            have ha : a = { p with last_child := nonZeroNew acc.length } := by
              injection hqa with h1; exact h1.symm
            subst ha
            rw [lastChildAux, if_pos ⟨hm0, by rw [hm]; rfl⟩]
            show nonZeroNew acc.length = some pre.length
            rw [hlen, nonZeroNew, if_neg hm0]
          · rw [List.get?_set_ne _ _ (fun hh => hqp hh.symm)] at hqa
            rw [hlast q a hqa, lastChildAux, if_neg ?_]
            rintro ⟨_, hc⟩
            rw [hm] at hc
            simp at hc
            exact hqp hc.symm
        · have hqeq : q = acc.length := by omega
          subst hqeq
          have hlast' := List.get?_concat_length
            (acc.set t.parent { p with last_child := nonZeroNew acc.length })
            ({ t with last_child := none })
          rw [List.length_set] at hlast'
          rw [hlast'] at hqa
          have ha : a = { t with last_child := none } := by
            injection hqa with h1; exact h1.symm
          subst ha
          rw [hlen, lastChildAux, if_neg ?_]
          · show none = lastChildAux revs pre.length pre.length
            refine (lastChildAux_eq_none revs pre.length pre.length ?_).symm
            intro j r hj hj0 hjr
            have := hinv j r hjr hj0
            omega
          · rintro ⟨_, hc⟩
            rw [hm] at hc
            simp at hc
            omega

/-- Claim C3: for every History satisfying the tree invariant (`parent < i`
for `i > 0`, index 0 the canonical root), serializing with offset 0 and
deserializing against the same live file succeeds, returning the same
current index and revisions equal in all serialized fields (parent,
transaction, inversion, timestamp), with each reconstructed `last_child`
equal to the index of that revision's most recently appended child (or
absent when childless). -/
theorem serialize_deserialize_roundtrip (hashFn : List Nat → List Nat)
    (file : List Nat) (h : History)
    (hlen : (hashFn file).length = 20)
    (hne : h.revisions ≠ [])
    (hinv : parentIndexInv h.revisions = true)
    (hroot : ∀ r0 ∈ h.revisions.take 1, coreEq r0 defaultRev) :
    ∃ h' : History,
      History.deserialize hashFn file (History.serialize hashFn file h 0) =
          .ok ((h.current, h'), []) ∧
        h'.current = h.current ∧
        h'.revisions.length = h.revisions.length ∧
        (∀ q a b, h'.revisions.get? q = some a → h.revisions.get? q = some b →
          coreEq a b) ∧
        (∀ q a, h'.revisions.get? q = some a →
          a.last_child = lastChildAux h.revisions h.revisions.length q) := by
  have hinvP := (parentIndexInv_iff h.revisions).mp hinv
  have hrootP : ∀ r0, h.revisions.get? 0 = some r0 → coreEq r0 defaultRev := by
    intro r0 hr0
    apply hroot
    cases hrevs : h.revisions with
    | nil => rw [hrevs] at hr0; simp at hr0
    | cons a as =>
      rw [hrevs] at hr0
      simp only [List.get?_cons_zero, Option.some.injEq] at hr0
      subst hr0
      simp
  obtain ⟨out, hloop, hol, hocore, holast⟩ :=
    readRevisions_roundtrip h.revisions hinvP hrootP h.revisions [] [] []
      (by simp) (by simp)
      (by intro q a b hqa; simp at hqa)
      (by intro q a hqa; simp at hqa)
  rw [List.append_nil] at hloop
  refine ⟨⟨out, h.current, none⟩, ?_, rfl, hol, hocore, holast⟩
  have hser := (serialize_header_amended hashFn file h 0 hlen).2
  simp only [History.deserialize, hser, read_usize_write, List.drop_zero, hloop]

/-- Witness for C3 at the concrete three-revision history `hist3` (its
stored `last_child` pointers already equal the reconstructed ones, so the
round trip reproduces it exactly). -/
theorem serialize_deserialize_roundtrip_witness :
    (hf0 [5, 6]).length = 20 ∧ hist3.revisions ≠ [] ∧
      parentIndexInv hist3.revisions = true ∧
      History.deserialize hf0 [5, 6] (History.serialize hf0 [5, 6] hist3 0) =
        .ok ((2, hist3), []) := by
  obtain ⟨h', heq, hcur, hlenr, hcore, hlast⟩ :=
    serialize_deserialize_roundtrip hf0 [5, 6] hist3 (by decide) (by decide)
      (by decide) (by decide)
  refine ⟨by decide, by decide, by decide, ?_⟩
  have hconc : History.deserialize hf0 [5, 6] (History.serialize hf0 [5, 6] hist3 0) =
      .ok ((2, hist3), []) := by rfl
  exact hconc

/-- Witness for C4's amended claim at a concrete history and hasher. -/
theorem serialize_header_amended_witness :
    (hf0 []).length = 20 ∧
      History.read_header hf0 [] (History.serialize hf0 [] hist3 0) =
        .ok (2, write_usize 3 ++ hist3.revisions.flatMap Revision.serialize) := by
  refine ⟨by decide, ?_⟩
  have h := (serialize_header_amended hf0 [] hist3 0 (by decide)).2
  simpa [hist3] using h

end Helix
